import Mathlib

/-!
Shallow embedding of `src/pagerank.py` (PageRank over a directed link graph)
and proofs about its graph construction, transition model, sampling
estimator and iterative estimator.

Python dictionaries `node -> set of node` are modelled by a `Graph`
structure: a finite set of keys (`nodes`) together with the outbound-set
function (`out`).  Rank vectors and probability distributions (Python
dicts `node -> float`) are modelled as functions `String → ℚ`; every
statement only inspects them on the graph's node set, matching the dict's
key set.  Python float arithmetic is modelled by exact rational
arithmetic.  Fallible operations (a dict lookup that can raise `KeyError`,
`random.randrange` on an empty range, a loop without an a-priori bound)
are modelled with `Option`, where `none` stands for a raised exception /
non-termination within the given fuel.
-/

namespace PageRank

/-- A corpus graph: the dictionary's key set and each key's outbound set. -/
structure Graph where
  nodes : Finset String
  out : String → Finset String

/-- The node count `N = len(corpus.keys())` as a rational. -/
def Graph.N (g : Graph) : ℚ := (g.nodes.card : ℚ)

/-- Graph Model invariant: every outbound neighbor is itself a node
(closed over its own node set). -/
def Graph.Closed (g : Graph) : Prop := ∀ p ∈ g.nodes, g.out p ⊆ g.nodes

/-- Graph Model invariant: no node is its own neighbor. -/
def Graph.SelfLoopFree (g : Graph) : Prop := ∀ p ∈ g.nodes, p ∉ g.out p

instance (g : Graph) : Decidable g.Closed := by
  unfold Graph.Closed; infer_instance

instance (g : Graph) : Decidable g.SelfLoopFree := by
  unfold Graph.SelfLoopFree; infer_instance

/-! ## transition_model (src/pagerank.py lines 51-77) -/

/-- The body of `transition_model(corpus, page, damping_factor)`:
if `len(corpus[page]) == 0`, every node gets `1 / len(corpus.keys())`;
otherwise node `c` gets `damping_factor / len(corpus[page]) +
(1 - damping_factor) / len(corpus.keys())` when `c in corpus[page]` and
`(1 - damping_factor) / len(corpus.keys())` otherwise. -/
def transition_model (g : Graph) (page : String) (damping_factor : ℚ) :
    String → ℚ :=
  if (g.out page).card = 0 then
    fun _ => 1 / g.N
  else
    fun c =>
      if c ∈ g.out page then
        damping_factor / ((g.out page).card : ℚ) + (1 - damping_factor) / g.N
      else
        (1 - damping_factor) / g.N

/-- Calling `transition_model`: the lookup `corpus[page]` raises `KeyError`
(modelled as `none`) exactly when `page` is not a key of the dict. -/
def transition_model_call (g : Graph) (page : String) (damping_factor : ℚ) :
    Option (String → ℚ) :=
  if page ∈ g.nodes then some (transition_model g page damping_factor)
  else none

/-! ## Concrete graphs used as witnesses -/

/-- The empty corpus. -/
def gEmpty : Graph := ⟨∅, fun _ => ∅⟩

/-- The single-node corpus `{A: {}}`. -/
def g1 : Graph := ⟨{"A"}, fun _ => ∅⟩

/-- The two-node corpus `{A: {B}, B: {A}}`. -/
def g2 : Graph :=
  ⟨{"A", "B"}, fun p => if p = "A" then {"B"} else if p = "B" then {"A"} else ∅⟩

/-! ## iterate_pagerank (src/pagerank.py lines 116-150) -/

/-- One pass of the `while True` loop body: for each `mainPage` the code
accumulates `summatory` over all pages (`ranks[page] / N` for a dangling
page, `ranks[page] / len(corpus[page])` when `mainPage in corpus[page]`)
and stores `summatory * damping_factor + (1 - damping_factor) / N`. -/
def iterateStep (g : Graph) (damping_factor : ℚ) (ranks : String → ℚ) :
    String → ℚ := fun mainPage =>
  (∑ page ∈ g.nodes,
      if (g.out page).card = 0 then ranks page / g.N
      else if mainPage ∈ g.out page then ranks page / ((g.out page).card : ℚ)
      else 0)
    * damping_factor + (1 - damping_factor) / g.N

/-- The `while True` loop of `iterate_pagerank`, with explicit fuel
(`none` = the loop has not returned within `fuel` passes).  Each pass
computes `ranksUpdated` from the current `ranks`; if some page's old and
new ranks differ by more than `0.001` the loop adopts `ranksUpdated` and
repeats, otherwise it returns `ranks`. -/
def iterLoop (g : Graph) (damping_factor : ℚ) :
    ℕ → (String → ℚ) → Option (String → ℚ)
  | 0, _ => none
  | fuel + 1, ranks =>
    if ∃ page ∈ g.nodes,
        (1 : ℚ) / 1000 < |ranks page - iterateStep g damping_factor ranks page| then
      iterLoop g damping_factor fuel (iterateStep g damping_factor ranks)
    else some ranks

/-- The initial rank dict of `iterate_pagerank`: every node gets `1 / N`. -/
def initRanks (g : Graph) : String → ℚ := fun _ => 1 / g.N

/-- Model of `iterate_pagerank(corpus, damping_factor)`, with explicit fuel for the
unbounded `while True` loop. -/
def iterate_pagerank (g : Graph) (damping_factor : ℚ) (fuel : ℕ) :
    Option (String → ℚ) :=
  iterLoop g damping_factor fuel (initRanks g)

/-! ## sample_pagerank (src/pagerank.py lines 79-114)

The random draws are abstracted: `start` stands for
`pages[random.randrange(len(pages))]` and `draws i` for the result of the
i-th `random.choices(pages, weights=p, k=1)[0]` call; both always return
elements of `pages`, which theorems assume as a hypothesis.  On an empty
corpus `random.randrange(0)` raises `ValueError`, modelled as `none`. -/

/-- The list of visited pages: the random start plus `n - 1` sampled
steps. -/
def samplePath (n : ℕ) (start : String) (draws : ℕ → String) : List String :=
  start :: (List.range (n - 1)).map draws

/-- Model of `sample_pagerank(corpus, damping_factor, n)`: raises (returns `none`)
on an empty corpus (`random.randrange(0)` raises `ValueError`) and when
`n = 0` on a non-empty corpus (`ranks[r] /= n` raises
`ZeroDivisionError`); otherwise each page's rank is its visit count
divided by `n`. -/
def sample_pagerank (g : Graph) (damping_factor : ℚ) (n : ℕ)
    (start : String) (draws : ℕ → String) : Option (String → ℚ) :=
  if g.nodes.card = 0 then none
  else if n = 0 then none
  else some fun p => ((samplePath n start draws).count p : ℚ) / (n : ℚ)

/-! ## crawl (src/pagerank.py lines 24-48)

Only the pure graph construction is modelled: the input is the collection
of `(filename, extracted link list)` pairs, the directory walk and HTML
regex being I/O.  Pass 1 builds the dict `pages[filename] =
set(links) - {filename}` (later pairs overwrite earlier ones, as for a
Python dict); pass 2 keeps only links that are themselves keys. -/

/-- Pass 1 of `crawl`: the dict after `pages[filename] = set(links) -
{filename}` for every pair, as a finite map (absent keys map to none). -/
def crawlPass1 (input : List (String × List String)) :
    String → Option (Finset String) :=
  input.foldl
    (fun pages fl => fun x =>
      if x = fl.1 then some (fl.2.toFinset.erase fl.1) else pages x)
    (fun _ => none)

/-- The key set of the dict built by pass 1. -/
def crawlKeys (input : List (String × List String)) : Finset String :=
  (input.map Prod.fst).toFinset

/-- Pass 2 of `crawl` replaces each node's set by the sub-set of links that
are themselves pages of the corpus. -/
def crawl (input : List (String × List String)) :
    String → Option (Finset String) :=
  fun x =>
    (crawlPass1 input x).map fun s => s.filter (fun link => link ∈ crawlKeys input)

/-! ## Helper lemmas -/

/-- The coefficient with which page `q`'s old rank flows into `p`'s
`summatory` in one pass of `iterate_pagerank`. -/
def flow (g : Graph) (p q : String) : ℚ :=
  if (g.out q).card = 0 then 1 / g.N
  else if p ∈ g.out q then 1 / ((g.out q).card : ℚ)
  else 0

lemma flow_nonneg (g : Graph) (p q : String) : 0 ≤ flow g p q := by
  unfold flow Graph.N
  split
  · exact div_nonneg zero_le_one (Nat.cast_nonneg _)
  · split
    · exact div_nonneg zero_le_one (Nat.cast_nonneg _)
    · exact le_refl 0

lemma iterateStep_eq_flow (g : Graph) (d : ℚ) (r : String → ℚ) (p : String) :
    iterateStep g d r p =
      (∑ q ∈ g.nodes, flow g p q * r q) * d + (1 - d) / g.N := by
  unfold iterateStep flow
  congr 1
  congr 1
  refine Finset.sum_congr rfl fun q _ => ?_
  split
  · rw [one_div_mul_eq_div]
  · split
    · rw [one_div_mul_eq_div]
    · rw [zero_mul]

lemma flow_colsum (g : Graph) (hc : g.Closed) (hN : 1 ≤ g.nodes.card)
    (q : String) (hq : q ∈ g.nodes) :
    ∑ p ∈ g.nodes, flow g p q = 1 := by
  have hcard : ((g.nodes.card : ℚ)) ≠ 0 := by
    have h0 : (0 : ℚ) < (g.nodes.card : ℚ) := by exact_mod_cast hN
    exact h0.ne'
  unfold flow Graph.N
  by_cases h : (g.out q).card = 0
  · simp only [h, if_true, eq_self_iff_true]
    rw [Finset.sum_const, nsmul_eq_mul]
    rw [mul_one_div, div_self hcard]
  · simp only [h, if_false]
    rw [Finset.sum_ite_mem]
    rw [Finset.inter_eq_right.mpr (hc q hq)]
    rw [Finset.sum_const, nsmul_eq_mul]
    rw [mul_one_div, div_self (by exact_mod_cast h)]

lemma iterateStep_sub (g : Graph) (d : ℚ) (r s : String → ℚ) (p : String) :
    iterateStep g d r p - iterateStep g d s p =
      (∑ q ∈ g.nodes, flow g p q * (r q - s q)) * d := by
  rw [iterateStep_eq_flow, iterateStep_eq_flow]
  have h : ∑ q ∈ g.nodes, flow g p q * (r q - s q) =
      (∑ q ∈ g.nodes, flow g p q * r q) - ∑ q ∈ g.nodes, flow g p q * s q := by
    rw [← Finset.sum_sub_distrib]
    exact Finset.sum_congr rfl fun q _ => mul_sub _ _ _
  rw [h]
  ring

/-- L1 distance between two rank vectors over the graph's node set. -/
def l1dist (g : Graph) (r s : String → ℚ) : ℚ := ∑ p ∈ g.nodes, |r p - s p|

lemma l1dist_nonneg (g : Graph) (r s : String → ℚ) : 0 ≤ l1dist g r s :=
  Finset.sum_nonneg fun p _ => abs_nonneg _

lemma abs_sub_le_l1dist (g : Graph) (r s : String → ℚ) {p : String}
    (hp : p ∈ g.nodes) : |r p - s p| ≤ l1dist g r s :=
  Finset.single_le_sum (fun q _ => abs_nonneg (r q - s q)) hp

/-- One pass contracts L1 distance by at least the damping factor. -/
lemma l1dist_iterateStep (g : Graph) (hc : g.Closed) (hN : 1 ≤ g.nodes.card)
    {d : ℚ} (hd : 0 ≤ d) (r s : String → ℚ) :
    l1dist g (iterateStep g d r) (iterateStep g d s) ≤ d * l1dist g r s := by
  unfold l1dist
  calc
    ∑ p ∈ g.nodes, |iterateStep g d r p - iterateStep g d s p|
        = ∑ p ∈ g.nodes, |∑ q ∈ g.nodes, flow g p q * (r q - s q)| * d := by
          refine Finset.sum_congr rfl fun p _ => ?_
          rw [iterateStep_sub, abs_mul, abs_of_nonneg hd]
    _ ≤ ∑ p ∈ g.nodes, (∑ q ∈ g.nodes, flow g p q * |r q - s q|) * d := by
          refine Finset.sum_le_sum fun p _ => ?_
          refine mul_le_mul_of_nonneg_right ?_ hd
          refine (Finset.abs_sum_le_sum_abs _ _).trans (le_of_eq ?_)
          refine Finset.sum_congr rfl fun q _ => ?_
          rw [abs_mul, abs_of_nonneg (flow_nonneg g p q)]
    _ = (∑ q ∈ g.nodes, (∑ p ∈ g.nodes, flow g p q) * |r q - s q|) * d := by
          rw [← Finset.sum_mul]
          congr 1
          rw [Finset.sum_comm]
          exact Finset.sum_congr rfl fun q _ => (Finset.sum_mul _ _ _).symm
    _ = (∑ q ∈ g.nodes, |r q - s q|) * d := by
          congr 1
          refine Finset.sum_congr rfl fun q hq => ?_
          rw [flow_colsum g hc hN q hq, one_mul]
    _ = d * ∑ p ∈ g.nodes, |r p - s p| := mul_comm _ _

/-- Successive iterates get geometrically close in L1 distance. -/
lemma l1dist_iterate_pow (g : Graph) (hc : g.Closed) (hN : 1 ≤ g.nodes.card)
    {d : ℚ} (hd : 0 ≤ d) (r0 : String → ℚ) (k : ℕ) :
    l1dist g ((iterateStep g d)^[k + 1] r0) ((iterateStep g d)^[k] r0) ≤
      d ^ k * l1dist g (iterateStep g d r0) r0 := by
  induction k with
  | zero => simp
  | succ k ih =>
    calc
      l1dist g ((iterateStep g d)^[k + 1 + 1] r0) ((iterateStep g d)^[k + 1] r0)
          = l1dist g (iterateStep g d ((iterateStep g d)^[k + 1] r0))
              (iterateStep g d ((iterateStep g d)^[k] r0)) := by
            rw [Function.iterate_succ_apply' (iterateStep g d) (k + 1) r0,
              Function.iterate_succ_apply' (iterateStep g d) k r0]
      _ ≤ d * l1dist g ((iterateStep g d)^[k + 1] r0) ((iterateStep g d)^[k] r0) :=
            l1dist_iterateStep g hc hN hd _ _
      _ ≤ d * (d ^ k * l1dist g (iterateStep g d r0) r0) :=
            mul_le_mul_of_nonneg_left ih hd
      _ = d ^ (k + 1) * l1dist g (iterateStep g d r0) r0 := by ring

/-- The convergence test of the loop: every node's old and new rank agree
within 0.001. -/
def converged (g : Graph) (d : ℚ) (r : String → ℚ) : Prop :=
  ∀ p ∈ g.nodes, |r p - iterateStep g d r p| ≤ 1 / 1000

lemma iterLoop_succ (g : Graph) (d : ℚ) (fuel : ℕ) (r : String → ℚ) :
    iterLoop g d (fuel + 1) r =
      if ∃ page ∈ g.nodes,
          (1 : ℚ) / 1000 < |r page - iterateStep g d r page| then
        iterLoop g d fuel (iterateStep g d r)
      else some r := rfl

lemma iterLoop_continue (g : Graph) (d : ℚ) (fuel : ℕ) (r : String → ℚ)
    (h : ∃ page ∈ g.nodes, (1 : ℚ) / 1000 < |r page - iterateStep g d r page|) :
    iterLoop g d (fuel + 1) r = iterLoop g d fuel (iterateStep g d r) := by
  rw [iterLoop_succ, if_pos h]

lemma iterLoop_stop (g : Graph) (d : ℚ) (fuel : ℕ) (r : String → ℚ)
    (h : converged g d r) : iterLoop g d (fuel + 1) r = some r := by
  rw [iterLoop_succ, if_neg]
  push_neg
  exact h

lemma iterLoop_sound (g : Graph) (d : ℚ) :
    ∀ fuel r res, iterLoop g d fuel r = some res → converged g d res := by
  intro fuel
  induction fuel with
  | zero => intro r res h; exact absurd h (by simp [iterLoop])
  | succ fuel ih =>
    intro r res h
    unfold iterLoop at h
    by_cases hcond : ∃ page ∈ g.nodes,
        (1 : ℚ) / 1000 < |r page - iterateStep g d r page|
    · rw [if_pos hcond] at h
      exact ih _ _ h
    · rw [if_neg hcond] at h
      obtain rfl : r = res := Option.some_injective _ h
      intro p hp
      push_neg at hcond
      exact hcond p hp

lemma iterLoop_terminates_of_converged (g : Graph) (d : ℚ) :
    ∀ k r, converged g d ((iterateStep g d)^[k] r) →
      ∃ res, iterLoop g d (k + 1) r = some res := by
  intro k
  induction k with
  | zero => intro r h; exact ⟨r, iterLoop_stop g d 0 r h⟩
  | succ k ih =>
    intro r h
    by_cases hcond : ∃ page ∈ g.nodes,
        (1 : ℚ) / 1000 < |r page - iterateStep g d r page|
    · rw [iterLoop_continue g d (k + 1) r hcond]
      refine ih (iterateStep g d r) ?_
      rwa [← Function.iterate_succ_apply]
    · push_neg at hcond
      exact ⟨r, iterLoop_stop g d (k + 1) r hcond⟩

lemma iterLoop_det (g : Graph) (d : ℚ) :
    ∀ f₁ f₂ r a b, iterLoop g d f₁ r = some a → iterLoop g d f₂ r = some b →
      a = b := by
  intro f₁
  induction f₁ with
  | zero => intro f₂ r a b ha; exact absurd ha (by simp [iterLoop])
  | succ f₁ ih =>
    intro f₂ r a b ha hb
    cases f₂ with
    | zero => exact absurd hb (by simp [iterLoop])
    | succ f₂ =>
      unfold iterLoop at ha hb
      by_cases hcond : ∃ page ∈ g.nodes,
          (1 : ℚ) / 1000 < |r page - iterateStep g d r page|
      · rw [if_pos hcond] at ha hb
        exact ih f₂ _ a b ha hb
      · rw [if_neg hcond] at ha hb
        rw [← Option.some_injective _ ha, ← Option.some_injective _ hb]

/-- One pass maps total rank `Σ r` to `d * Σ r + (1 - d)`. -/
lemma iterateStep_sum (g : Graph) (hc : g.Closed) (hN : 1 ≤ g.nodes.card)
    (d : ℚ) (r : String → ℚ) :
    ∑ p ∈ g.nodes, iterateStep g d r p =
      d * (∑ q ∈ g.nodes, r q) + (1 - d) := by
  have hcard : ((g.nodes.card : ℚ)) ≠ 0 := by
    have h0 : (0 : ℚ) < (g.nodes.card : ℚ) := by exact_mod_cast hN
    exact h0.ne'
  calc
    ∑ p ∈ g.nodes, iterateStep g d r p
        = ∑ p ∈ g.nodes, ((∑ q ∈ g.nodes, flow g p q * r q) * d + (1 - d) / g.N) :=
          Finset.sum_congr rfl fun p _ => iterateStep_eq_flow g d r p
    _ = (∑ p ∈ g.nodes, ∑ q ∈ g.nodes, flow g p q * r q) * d +
          (g.nodes.card : ℚ) * ((1 - d) / g.N) := by
          rw [Finset.sum_add_distrib, Finset.sum_mul, Finset.sum_const, nsmul_eq_mul]
    _ = (∑ q ∈ g.nodes, (∑ p ∈ g.nodes, flow g p q) * r q) * d + (1 - d) := by
          congr 1
          · congr 1
            rw [Finset.sum_comm]
            exact Finset.sum_congr rfl fun q _ => (Finset.sum_mul _ _ _).symm
          · rw [Graph.N, mul_div_assoc']
            rw [mul_comm, mul_div_assoc, div_self hcard, mul_one]
    _ = (∑ q ∈ g.nodes, r q) * d + (1 - d) := by
          congr 1
          congr 1
          refine Finset.sum_congr rfl fun q hq => ?_
          rw [flow_colsum g hc hN q hq, one_mul]
    _ = d * (∑ q ∈ g.nodes, r q) + (1 - d) := by ring

lemma iterLoop_sum (g : Graph) (hc : g.Closed) (hN : 1 ≤ g.nodes.card) (d : ℚ) :
    ∀ fuel r res, (∑ p ∈ g.nodes, r p) = 1 → iterLoop g d fuel r = some res →
      ∑ p ∈ g.nodes, res p = 1 := by
  intro fuel
  induction fuel with
  | zero => intro r res _ h; exact absurd h (by simp [iterLoop])
  | succ fuel ih =>
    intro r res hsum h
    unfold iterLoop at h
    by_cases hcond : ∃ page ∈ g.nodes,
        (1 : ℚ) / 1000 < |r page - iterateStep g d r page|
    · rw [if_pos hcond] at h
      refine ih _ _ ?_ h
      rw [iterateStep_sum g hc hN d r, hsum, mul_one]
      ring
    · rw [if_neg hcond] at h
      rwa [← Option.some_injective _ h]

lemma initRanks_sum (g : Graph) (hN : 1 ≤ g.nodes.card) :
    ∑ p ∈ g.nodes, initRanks g p = 1 := by
  have hcard : ((g.nodes.card : ℚ)) ≠ 0 := by
    have h0 : (0 : ℚ) < (g.nodes.card : ℚ) := by exact_mod_cast hN
    exact h0.ne'
  unfold initRanks Graph.N
  rw [Finset.sum_const, nsmul_eq_mul, mul_one_div, div_self hcard]

/-- For damping below 1 some iterate of the update operator passes the
convergence test. -/
lemma exists_converged_iterate (g : Graph) (hc : g.Closed)
    (hN : 1 ≤ g.nodes.card) {d : ℚ} (hd0 : 0 ≤ d) (hd1 : d < 1)
    (r0 : String → ℚ) : ∃ k, converged g d ((iterateStep g d)^[k] r0) := by
  set C := l1dist g (iterateStep g d r0) r0 with hC
  have hC0 : 0 ≤ C := l1dist_nonneg _ _ _
  have hCp : (0 : ℚ) < (1 / 1000) / (C + 1) := by positivity
  obtain ⟨k, hk⟩ := exists_pow_lt_of_lt_one hCp hd1
  refine ⟨k, ?_⟩
  intro p hp
  have hTk : iterateStep g d ((iterateStep g d)^[k] r0) =
      (iterateStep g d)^[k + 1] r0 := (Function.iterate_succ_apply' _ _ _).symm
  rw [hTk]
  have h1 : |(iterateStep g d)^[k] r0 p - (iterateStep g d)^[k + 1] r0 p| ≤
      l1dist g ((iterateStep g d)^[k + 1] r0) ((iterateStep g d)^[k] r0) := by
    rw [abs_sub_comm]
    exact abs_sub_le_l1dist g _ _ hp
  refine h1.trans ?_
  refine (l1dist_iterate_pow g hc hN hd0 r0 k).trans ?_
  have h2 : d ^ k * C ≤ d ^ k * (C + 1) :=
    mul_le_mul_of_nonneg_left (by linarith) (pow_nonneg hd0 k)
  have h3 : d ^ k * (C + 1) < ((1 / 1000) / (C + 1)) * (C + 1) :=
    mul_lt_mul_of_pos_right hk (by linarith)
  have h4 : ((1 / 1000 : ℚ) / (C + 1)) * (C + 1) = 1 / 1000 := by
    field_simp
    ring
  linarith

/-! ## Claim theorems -/

/-- C3: for every graph satisfying the Graph Model invariants with at
least one node and every damping in (0, 1), iterate_pagerank terminates
(the while-loop returns within some finite number of passes); it returns
only when every node's previous and updated rank differ by at most 0.001;
and whenever some node's difference exceeds 0.001 it adopts the updated
ranks and performs another pass. -/
theorem iterate_pagerank_terminates (g : Graph) (d : ℚ)
    (hc : g.Closed) (hsl : g.SelfLoopFree) (hN : 1 ≤ g.nodes.card)
    (hd0 : 0 < d) (hd1 : d < 1) :
    (∃ fuel res, iterate_pagerank g d fuel = some res) ∧
    (∀ fuel res, iterate_pagerank g d fuel = some res →
      ∀ p ∈ g.nodes, |res p - iterateStep g d res p| ≤ 1 / 1000) ∧
    (∀ fuel r,
      (∃ page ∈ g.nodes,
        (1 : ℚ) / 1000 < |r page - iterateStep g d r page|) →
      iterLoop g d (fuel + 1) r = iterLoop g d fuel (iterateStep g d r)) := by
  refine ⟨?_, ?_, ?_⟩
  · obtain ⟨k, hk⟩ := exists_converged_iterate g hc hN hd0.le hd1 (initRanks g)
    obtain ⟨res, hres⟩ := iterLoop_terminates_of_converged g d k (initRanks g) hk
    exact ⟨k + 1, res, hres⟩
  · exact fun fuel res h => iterLoop_sound g d fuel (initRanks g) res h
  · exact fun fuel r h => iterLoop_continue g d fuel r h

/-- Witness for C3 at the two-node graph `{A: {B}, B: {A}}` with the
conventional damping 0.85. -/
theorem iterate_pagerank_terminates_witness :
    (∃ fuel res, iterate_pagerank g2 (17 / 20) fuel = some res) ∧
    (∀ fuel res, iterate_pagerank g2 (17 / 20) fuel = some res →
      ∀ p ∈ g2.nodes, |res p - iterateStep g2 (17 / 20) res p| ≤ 1 / 1000) ∧
    (∀ fuel r,
      (∃ page ∈ g2.nodes,
        (1 : ℚ) / 1000 < |r page - iterateStep g2 (17 / 20) r page|) →
      iterLoop g2 (17 / 20) (fuel + 1) r =
        iterLoop g2 (17 / 20) fuel (iterateStep g2 (17 / 20) r)) :=
  iterate_pagerank_terminates g2 (17 / 20) (by decide) (by decide) (by decide)
    (by norm_num) (by norm_num)

/-- C7: iterate_pagerank is deterministic — it has no source of
randomness, so whenever two runs on the same graph and damping return
(for any fuel amounts), they return the same rank vector. -/
theorem iterate_pagerank_deterministic (g : Graph) (d : ℚ)
    (fuel₁ fuel₂ : ℕ) (res₁ res₂ : String → ℚ)
    (h₁ : iterate_pagerank g d fuel₁ = some res₁)
    (h₂ : iterate_pagerank g d fuel₂ = some res₂) : res₁ = res₂ :=
  iterLoop_det g d fuel₁ fuel₂ (initRanks g) res₁ res₂ h₁ h₂

/-- Witness for C7 on the single-node graph at damping 1/2. -/
theorem iterate_pagerank_deterministic_witness : initRanks g1 = initRanks g1 := by
  have h : iterate_pagerank g1 (1 / 2) 1 = some (initRanks g1) := by
    simp [iterate_pagerank, iterLoop, iterateStep, initRanks, g1, Graph.N]
  exact iterate_pagerank_deterministic g1 (1 / 2) 1 1 _ _ h h

/-- The spec's `contribution(q, p)`, written from the spec's words:
`rank[q] / |outbound(q)|` if `p ∈ outbound(q)`, `rank[q] / N` if `q` is
dangling, and `0` otherwise. -/
def spec_contribution (g : Graph) (ranks : String → ℚ) (q p : String) : ℚ :=
  if p ∈ g.out q then ranks q / ((g.out q).card : ℚ)
  else if (g.out q).card = 0 then ranks q / g.N
  else 0

/-- C1: each pass of iterate_pagerank computes node `p`'s updated rank as
`(1 - damping)/N + damping * Σ_q contribution(q, p)` from the previous
pass's snapshot `ranks` (the pass is the pure function `iterateStep`
applied to the unchanged dict `ranks`, a Jacobi-style update). -/
theorem iterate_step_formula (g : Graph) (d : ℚ) (hc : g.Closed)
    (hsl : g.SelfLoopFree) (hN : 1 ≤ g.nodes.card) (hd0 : 0 < d)
    (hd1 : d < 1) (ranks : String → ℚ) (p : String) (hp : p ∈ g.nodes) :
    iterateStep g d ranks p =
      (1 - d) / g.N + d * ∑ q ∈ g.nodes, spec_contribution g ranks q p := by
  unfold iterateStep spec_contribution
  rw [add_comm, mul_comm]
  congr 1
  congr 1
  refine Finset.sum_congr rfl fun q _ => ?_
  by_cases h0 : (g.out q).card = 0
  · have he : g.out q = ∅ := Finset.card_eq_zero.mp h0
    simp [h0, he]
  · simp [h0]

/-- Witness for C1 on `{A: {B}, B: {A}}`, damping 0.85, the initial rank
dict, node A. -/
theorem iterate_step_formula_witness :
    iterateStep g2 (17 / 20) (initRanks g2) "A" =
      (1 - 17 / 20) / g2.N +
        (17 / 20) * ∑ q ∈ g2.nodes, spec_contribution g2 (initRanks g2) q "A" :=
  iterate_step_formula g2 (17 / 20) (by decide) (by decide) (by decide)
    (by norm_num) (by norm_num) (initRanks g2) "A" (by decide)

/-- C2: for a page of the graph, transition_model returns the uniform
distribution `1/N` when the page is dangling, and otherwise
`(1 - damping)/N` plus `damping/|outbound(page)|` exactly for outbound
neighbors; in both cases the values are non-negative and sum to 1. -/
theorem transition_model_distribution (g : Graph) (page : String) (d : ℚ)
    (hc : g.Closed) (hsl : g.SelfLoopFree) (hN : 1 ≤ g.nodes.card)
    (hp : page ∈ g.nodes) (hd0 : 0 < d) (hd1 : d < 1) :
    ((g.out page).card = 0 → ∀ c, transition_model g page d c = 1 / g.N) ∧
    ((g.out page).card ≠ 0 → ∀ c ∈ g.nodes,
      transition_model g page d c =
        (1 - d) / g.N +
          (if c ∈ g.out page then d / ((g.out page).card : ℚ) else 0)) ∧
    (∀ c ∈ g.nodes, 0 ≤ transition_model g page d c) ∧
    (∑ c ∈ g.nodes, transition_model g page d c = 1) := by
  have hcard : ((g.nodes.card : ℚ)) ≠ 0 := by
    have h0 : (0 : ℚ) < (g.nodes.card : ℚ) := by exact_mod_cast hN
    exact h0.ne'
  have hNnn : (0 : ℚ) ≤ g.N := Nat.cast_nonneg _
  refine ⟨?_, ?_, ?_, ?_⟩
  · intro h0 c
    unfold transition_model
    rw [if_pos h0]
  · intro h0 c _
    by_cases hco : c ∈ g.out page
    · simp only [transition_model, if_neg h0, if_pos hco]
      ring
    · simp only [transition_model, if_neg h0, if_neg hco]
      ring
  · intro c _
    unfold transition_model
    by_cases h0 : (g.out page).card = 0
    · rw [if_pos h0]
      exact div_nonneg zero_le_one hNnn
    · rw [if_neg h0]
      by_cases hco : c ∈ g.out page
      · simp only [if_pos hco]
        have h1 : (0 : ℚ) ≤ d / ((g.out page).card : ℚ) :=
          div_nonneg hd0.le (Nat.cast_nonneg _)
        have h2 : (0 : ℚ) ≤ (1 - d) / g.N :=
          div_nonneg (by linarith) hNnn
        linarith
      · simp only [if_neg hco]
        exact div_nonneg (by linarith) hNnn
  · unfold transition_model
    by_cases h0 : (g.out page).card = 0
    · rw [if_pos h0]
      rw [Finset.sum_const, nsmul_eq_mul, mul_one_div, Graph.N, div_self hcard]
    · rw [if_neg h0]
      have houtcard : ((g.out page).card : ℚ) ≠ 0 := by exact_mod_cast h0
      calc
        ∑ c ∈ g.nodes,
            (if c ∈ g.out page then
              d / ((g.out page).card : ℚ) + (1 - d) / g.N
            else (1 - d) / g.N)
            = ∑ c ∈ g.nodes,
                ((if c ∈ g.out page then d / ((g.out page).card : ℚ) else 0) +
                  (1 - d) / g.N) := by
              refine Finset.sum_congr rfl fun c _ => ?_
              by_cases hco : c ∈ g.out page
              · rw [if_pos hco, if_pos hco]
              · rw [if_neg hco, if_neg hco, zero_add]
        _ = (∑ c ∈ g.nodes,
              if c ∈ g.out page then d / ((g.out page).card : ℚ) else 0) +
              (g.nodes.card : ℚ) * ((1 - d) / g.N) := by
              rw [Finset.sum_add_distrib, Finset.sum_const, nsmul_eq_mul]
        _ = d + (1 - d) := by
              congr 1
              · rw [Finset.sum_ite_mem,
                  Finset.inter_eq_right.mpr (hc page hp),
                  Finset.sum_const, nsmul_eq_mul]
                rw [mul_div_assoc']
                rw [mul_comm, mul_div_assoc, div_self houtcard, mul_one]
              · rw [Graph.N, mul_div_assoc']
                rw [mul_comm, mul_div_assoc, div_self hcard, mul_one]
        _ = 1 := by ring

/-- Witness for C2 on `{A: {B}, B: {A}}` at page A, damping 0.85. -/
theorem transition_model_distribution_witness :
    ((g2.out "A").card = 0 → ∀ c, transition_model g2 "A" (17 / 20) c = 1 / g2.N) ∧
    ((g2.out "A").card ≠ 0 → ∀ c ∈ g2.nodes,
      transition_model g2 "A" (17 / 20) c =
        (1 - 17 / 20) / g2.N +
          (if c ∈ g2.out "A" then (17 / 20) / ((g2.out "A").card : ℚ) else 0)) ∧
    (∀ c ∈ g2.nodes, 0 ≤ transition_model g2 "A" (17 / 20) c) ∧
    (∑ c ∈ g2.nodes, transition_model g2 "A" (17 / 20) c = 1) :=
  transition_model_distribution g2 "A" (17 / 20) (by decide) (by decide)
    (by decide) (by decide) (by norm_num) (by norm_num)

/-- C10: `transition_model` requires `page` to be a key of the corpus
dict: the `corpus[page]` lookup raises `KeyError` (modelled as `none`)
whenever `page` is not among the keys. -/
theorem transition_model_key_precondition (g : Graph) (page : String)
    (d : ℚ) (h : page ∉ g.nodes) : transition_model_call g page d = none := by
  unfold transition_model_call
  rw [if_neg h]

/-- Witness for C10: looking up the absent page Z of `{A: {B}, B: {A}}`
raises. -/
theorem transition_model_key_precondition_witness :
    "Z" ∉ g2.nodes ∧ transition_model_call g2 "Z" (17 / 20) = none :=
  ⟨by decide, transition_model_key_precondition g2 "Z" (17 / 20) (by decide)⟩

/-- Summing visit counts over a superset of the visited pages gives the
walk's length. -/
lemma sum_count_eq_length (s : Finset String) :
    ∀ l : List String, (∀ x ∈ l, x ∈ s) →
      ∑ p ∈ s, ((l.count p : ℚ)) = (l.length : ℚ) := by
  intro l
  induction l with
  | nil => intro _; simp
  | cons a l ih =>
    intro h
    have ha : a ∈ s := h a (List.mem_cons_self a l)
    have hl : ∀ x ∈ l, x ∈ s := fun x hx => h x (List.mem_cons_of_mem a hx)
    have hterm : ∀ p, (((a :: l).count p : ℚ)) =
        ((l.count p : ℚ)) + if p = a then 1 else 0 := by
      intro p
      by_cases hpa : p = a
      · subst hpa
        rw [List.count_cons_self]
        push_cast
        rw [if_pos rfl]
      · rw [List.count_cons_of_ne hpa, if_neg hpa, add_zero]
    rw [Finset.sum_congr rfl fun p _ => hterm p]
    rw [Finset.sum_add_distrib, ih hl]
    rw [Finset.sum_ite_eq' s a fun _ => (1 : ℚ)]
    rw [if_pos ha, List.length_cons]
    push_cast
    ring

/-- Every page of the walk is a node when the start and all draws are. -/
lemma samplePath_mem (g : Graph) (n : ℕ) (start : String)
    (draws : ℕ → String) (hs : start ∈ g.nodes)
    (hd : ∀ i, draws i ∈ g.nodes) :
    ∀ x ∈ samplePath n start draws, x ∈ g.nodes := by
  intro x hx
  unfold samplePath at hx
  rcases List.mem_cons.mp hx with h | h
  · rwa [h]
  · obtain ⟨i, _, rfl⟩ := List.mem_map.mp h
    exact hd i

lemma samplePath_length (n : ℕ) (hn : 1 ≤ n) (start : String)
    (draws : ℕ → String) : (samplePath n start draws).length = n := by
  unfold samplePath
  rw [List.length_cons, List.length_map, List.length_range]
  omega

/-- The sampler's output on a non-empty graph: the visit-frequency dict,
whose values over the node set sum to exactly 1. -/
lemma sample_pagerank_sum (g : Graph) (hN : 1 ≤ g.nodes.card) (d : ℚ)
    (n : ℕ) (hn : 1 ≤ n) (start : String) (hs : start ∈ g.nodes)
    (draws : ℕ → String) (hd : ∀ i, draws i ∈ g.nodes) :
    ∃ res, sample_pagerank g d n start draws = some res ∧
      ∑ p ∈ g.nodes, res p = 1 := by
  have hcard : ¬g.nodes.card = 0 := by omega
  refine ⟨fun p => ((samplePath n start draws).count p : ℚ) / (n : ℚ), ?_, ?_⟩
  · unfold sample_pagerank
    rw [if_neg hcard, if_neg (by omega : ¬n = 0)]
  · have hnne : ((n : ℚ)) ≠ 0 := by
      have : (0 : ℚ) < (n : ℚ) := by exact_mod_cast hn
      exact this.ne'
    rw [← Finset.sum_div]
    rw [sum_count_eq_length g.nodes (samplePath n start draws)
      (samplePath_mem g n start draws hs hd)]
    rw [samplePath_length n hn start draws, div_self hnne]

/-- C4: for a graph satisfying the invariants with at least one node,
damping in (0, 1) and a positive sample count, the rank dict returned by
sample_pagerank sums to 1 within 1e-3 over the nodes (the sum is exactly
1 in exact arithmetic), and the rank dict returned by iterate_pagerank
sums to 1 within 1e-9 (again exactly 1). -/
theorem rank_vectors_sum_to_one (g : Graph) (d : ℚ) (n : ℕ)
    (start : String) (draws : ℕ → String) (hc : g.Closed)
    (hsl : g.SelfLoopFree) (hN : 1 ≤ g.nodes.card) (hd0 : 0 < d)
    (hd1 : d < 1) (hn : 1 ≤ n) (hs : start ∈ g.nodes)
    (hdr : ∀ i, draws i ∈ g.nodes) :
    (∀ res, sample_pagerank g d n start draws = some res →
      |(∑ p ∈ g.nodes, res p) - 1| ≤ 1 / 1000) ∧
    (∀ fuel res, iterate_pagerank g d fuel = some res →
      |(∑ p ∈ g.nodes, res p) - 1| ≤ 1 / 1000000000) := by
  constructor
  · intro res hres
    obtain ⟨res', hres', hsum⟩ :=
      sample_pagerank_sum g hN d n hn start hs draws hdr
    rw [hres] at hres'
    have heq : res = res' := Option.some_injective _ hres'
    rw [heq, hsum]
    norm_num
  · intro fuel res hres
    have hsum := iterLoop_sum g hc hN d fuel (initRanks g) res
      (initRanks_sum g hN) hres
    rw [hsum]
    norm_num

/-- Witness for C4 on `{A: {B}, B: {A}}`, damping 0.85, 10000 samples,
start A, all draws A. -/
theorem rank_vectors_sum_to_one_witness :
    (∀ res, sample_pagerank g2 (17 / 20) 10000 "A" (fun _ => "A") = some res →
      |(∑ p ∈ g2.nodes, res p) - 1| ≤ 1 / 1000) ∧
    (∀ fuel res, iterate_pagerank g2 (17 / 20) fuel = some res →
      |(∑ p ∈ g2.nodes, res p) - 1| ≤ 1 / 1000000000) :=
  rank_vectors_sum_to_one g2 (17 / 20) 10000 "A" (fun _ => "A") (by decide)
    (by decide) (by decide) (by norm_num) (by norm_num) (by norm_num)
    (by decide) (by intro _; show ("A" : String) ∈ g2.nodes; decide)

/-- C9: on the single-node graph `{A: {}}` both estimators return the
rank dict `{A: 1.0}` — the sampler for every damping, every positive
sample count and every possible sequence of random draws, the iterative
solver for every damping (it converges on its very first pass, for any
fuel bound of at least one pass). -/
theorem single_node_graph_ranks (d : ℚ) (n : ℕ) (start : String)
    (draws : ℕ → String) (fuel : ℕ) (hd0 : 0 < d) (hd1 : d < 1)
    (hn : 1 ≤ n) (hs : start ∈ g1.nodes) (hdr : ∀ i, draws i ∈ g1.nodes)
    (hf : 1 ≤ fuel) :
    (∃ res, sample_pagerank g1 d n start draws = some res ∧ res "A" = 1) ∧
    (∃ res, iterate_pagerank g1 d fuel = some res ∧ res "A" = 1) := by
  constructor
  · have hnne : ((n : ℚ)) ≠ 0 := by
      have : (0 : ℚ) < (n : ℚ) := by exact_mod_cast hn
      exact this.ne'
    refine ⟨fun p => ((samplePath n start draws).count p : ℚ) / (n : ℚ), ?_, ?_⟩
    · unfold sample_pagerank
      rw [if_neg (by decide), if_neg (by omega : ¬n = 0)]
    · have hall : ∀ x ∈ samplePath n start draws, x = "A" := by
        intro x hx
        have hxg := samplePath_mem g1 n start draws hs hdr x hx
        simpa [g1] using hxg
      have hcount : (samplePath n start draws).count "A" =
          (samplePath n start draws).length := by
        rw [List.count_eq_length]
        intro b hb
        exact (hall b hb).symm
      show ((samplePath n start draws).count "A" : ℚ) / (n : ℚ) = 1
      rw [hcount, samplePath_length n hn start draws]
      exact div_self hnne
  · refine ⟨initRanks g1, ?_, ?_⟩
    · obtain ⟨k, rfl⟩ : ∃ k, fuel = k + 1 := ⟨fuel - 1, by omega⟩
      refine iterLoop_stop g1 d k (initRanks g1) ?_
      intro p hp
      have hpA : p = "A" := by simpa [g1] using hp
      subst hpA
      have hstep : iterateStep g1 d (initRanks g1) "A" = 1 := by
        simp [iterateStep, initRanks, g1, Graph.N]
      have hinit : initRanks g1 "A" = 1 := by simp [initRanks, g1, Graph.N]
      rw [hstep, hinit]
      norm_num
    · simp [initRanks, g1, Graph.N]

/-- Witness for C9 at damping 0.85, 10000 samples, all draws A, fuel 1. -/
theorem single_node_graph_ranks_witness :
    (∃ res, sample_pagerank g1 (17 / 20) 10000 "A" (fun _ => "A") = some res ∧
      res "A" = 1) ∧
    (∃ res, iterate_pagerank g1 (17 / 20) 1 = some res ∧ res "A" = 1) :=
  single_node_graph_ranks (17 / 20) 10000 "A" (fun _ => "A") 1 (by norm_num)
    (by norm_num) (by norm_num) (by decide)
    (by intro _; show ("A" : String) ∈ g1.nodes; decide) (by norm_num)

/-- C5 counterexample: on the zero-node graph `sample_pagerank` does not
return an empty rank vector — `random.randrange(len(pages))` is called
with `len(pages) = 0` and raises `ValueError` (modelled as `none`). -/
theorem sample_pagerank_empty_graph_raises :
    sample_pagerank gEmpty (17 / 20) 10 "A" (fun _ => "A") = none := by
  unfold sample_pagerank
  rw [if_pos (by decide)]

/-- C5 amended: on the zero-node graph `iterate_pagerank` returns the
empty rank dict (no division by zero is reached: the `1 / N`
initialization loop iterates over no keys, and the first pass converges
vacuously), while `sample_pagerank` raises `ValueError` from
`random.randrange(0)` instead of returning. -/
theorem empty_graph_handling (d : ℚ) (n : ℕ) (start : String)
    (draws : ℕ → String) (fuel : ℕ) (hd0 : 0 < d) (hd1 : d < 1)
    (hn : 1 ≤ n) (hf : 1 ≤ fuel) :
    iterate_pagerank gEmpty d fuel = some (initRanks gEmpty) ∧
    sample_pagerank gEmpty d n start draws = none := by
  constructor
  · obtain ⟨k, rfl⟩ : ∃ k, fuel = k + 1 := ⟨fuel - 1, by omega⟩
    exact iterLoop_stop gEmpty d k (initRanks gEmpty)
      (fun p hp => absurd hp (by simp [gEmpty]))
  · unfold sample_pagerank
    rw [if_pos (by decide)]

/-- Witness for the amended C5. -/
theorem empty_graph_handling_witness :
    iterate_pagerank gEmpty (17 / 20) 1 = some (initRanks gEmpty) ∧
    sample_pagerank gEmpty (17 / 20) 10 "A" (fun _ => "A") = none :=
  empty_graph_handling (17 / 20) 10 "A" (fun _ => "A") 1 (by norm_num)
    (by norm_num) (by norm_num) (by norm_num)

/-- C6 counterexample: with damping 2 (outside (0, 1)) nothing is
rejected: `transition_model` on `{A: {B}, B: {A}}` returns a distribution
assigning the negative probability -1/2 to A, and `iterate_pagerank` on
`{A: {}}` returns normally. -/
theorem no_validation_counterexample :
    transition_model_call g2 "A" 2 = some (transition_model g2 "A" 2) ∧
    transition_model g2 "A" 2 "A" = -(1 / 2) ∧
    iterate_pagerank g1 2 1 = some (initRanks g1) := by
  refine ⟨?_, ?_, ?_⟩
  · unfold transition_model_call
    rw [if_pos (by decide)]
  · simp [transition_model, g2, Graph.N]
    norm_num
  · simp [iterate_pagerank, iterLoop, iterateStep, initRanks, g1, Graph.N]

/-- C6 amended: the core performs no damping validation: whenever `page`
is a node, the `transition_model` call completes for every damping value,
and for damping > 1 it assigns a negative value to every node outside a
non-dangling page's outbound set instead of rejecting the call. -/
theorem no_damping_validation (g : Graph) (page : String) (d : ℚ)
    (hp : page ∈ g.nodes) :
    transition_model_call g page d = some (transition_model g page d) ∧
    (1 < d → (g.out page).card ≠ 0 → ∀ c ∈ g.nodes, c ∉ g.out page →
      transition_model g page d c < 0) := by
  constructor
  · unfold transition_model_call
    rw [if_pos hp]
  · intro hd h0 c _ hco
    simp only [transition_model, if_neg h0, if_neg hco]
    refine div_neg_of_neg_of_pos (by linarith) ?_
    have hpos : 0 < g.nodes.card := Finset.card_pos.mpr ⟨page, hp⟩
    unfold Graph.N
    exact_mod_cast hpos

/-- Witness for the amended C6 at `{A: {B}, B: {A}}`, page A, damping 2. -/
theorem no_damping_validation_witness :
    transition_model_call g2 "A" 2 = some (transition_model g2 "A" 2) ∧
    (1 < (2 : ℚ) → (g2.out "A").card ≠ 0 → ∀ c ∈ g2.nodes, c ∉ g2.out "A" →
      transition_model g2 "A" 2 c < 0) :=
  no_damping_validation g2 "A" 2 (by decide)

/-- The dict built by pass 1 of `crawl` never contains a key in its own
value set: every value ever stored for key `x` is `set(links) - {x}`. -/
lemma crawlPass1_not_self : ∀ (input : List (String × List String))
    (m : String → Option (Finset String)),
    (∀ x t, m x = some t → x ∉ t) →
    ∀ x t,
      (input.foldl
        (fun pages fl => fun y =>
          if y = fl.1 then some (fl.2.toFinset.erase fl.1) else pages y)
        m) x = some t → x ∉ t := by
  intro input
  induction input with
  | nil => intro m hm x t h; exact hm x t h
  | cons fl input ih =>
    intro m hm x t h
    rw [List.foldl_cons] at h
    refine ih _ ?_ x t h
    intro y s hy
    by_cases hyf : y = fl.1
    · rw [if_pos hyf] at hy
      obtain rfl : fl.2.toFinset.erase fl.1 = s := Option.some_injective _ hy
      rw [hyf]
      exact Finset.not_mem_erase fl.1 _
    · rw [if_neg hyf] at hy
      exact hm y s hy

lemma crawlPass1_self_not_mem (input : List (String × List String))
    (x : String) (t : Finset String) (h : crawlPass1 input x = some t) :
    x ∉ t := by
  refine crawlPass1_not_self input (fun _ => none) ?_ x t h
  intro y s hy
  exact absurd hy (by simp)

/-- C8: the graph built by `crawl` is closed over its own key set (every
remaining link is itself a key; out-of-corpus references are dropped by
pass 2, not reported) and self-loop free (`set(links) - {filename}`
removes self-references in pass 1). -/
theorem crawl_closed_and_selfloop_free
    (input : List (String × List String)) (x : String) (s : Finset String)
    (h : crawl input x = some s) :
    (∀ link ∈ s, link ∈ crawlKeys input) ∧ x ∉ s := by
  unfold crawl at h
  obtain ⟨t, ht, rfl⟩ := Option.map_eq_some'.mp h
  constructor
  · intro link hl
    exact (Finset.mem_filter.mp hl).2
  · intro hx
    exact crawlPass1_self_not_mem input x t ht (Finset.mem_filter.mp hx).1

/-- Witness for C8 on the corpus
`[("a", ["b", "a", "z"]), ("b", ["a"])]`: page a's raw links contain the
self-reference a (removed in pass 1) and the out-of-corpus reference z
(dropped in pass 2), leaving `{b}`. -/
theorem crawl_closed_and_selfloop_free_witness :
    crawl [("a", ["b", "a", "z"]), ("b", ["a"])] "a" = some {"b"} ∧
    ((∀ link ∈ ({"b"} : Finset String),
        link ∈ crawlKeys [("a", ["b", "a", "z"]), ("b", ["a"])]) ∧
      "a" ∉ ({"b"} : Finset String)) :=
  ⟨by decide,
    crawl_closed_and_selfloop_free [("a", ["b", "a", "z"]), ("b", ["a"])]
      "a" {"b"} (by decide)⟩

end PageRank
